import Mathlib

/-!
Verification development for the document-comparison service
(`server.js`).  The diff/render/summary pipeline is embedded shallowly:
pure JavaScript functions become Lean functions over `String` / `List`.
The sequence diff engine itself lives in the external `diff` npm package
(only its caller is in the repository), so it is modelled from the
specification (LCS-guided alignment); every other definition is a direct
translation of the corresponding function in `server.js`.
-/

namespace Pulse

/-- Kind of an edit-script segment (jsdiff `added` / `removed` flags). -/
inductive Kind where
  | unchanged
  | inserted
  | removed
deriving DecidableEq, Repr

/-- One segment of the edit script: `{ value, added?, removed? }`. -/
structure Seg where
  kind : Kind
  value : String
deriving DecidableEq, Repr

/-- The `diff_mode` request field: `"words"` (default) or `"lines"`. -/
inductive Mode where
  | words
  | lines
deriving DecidableEq, Repr

/-- Concatenation of a list of strings (JS `array.join("")`). -/
def concatValues (l : List String) : String := l.foldr (fun a b => a ++ b) ""

/- ### Tokenizer / normalizer (modelled from the spec)

`Modelled from the spec:` the tokenizer is part of the external `diff`
package (`diffWordsWithSpace` / `diffLines`); per spec section 4.1, words
mode tokens are maximal non-whitespace runs together with their trailing
whitespace, and lines mode tokens are the lines with their terminating
newline kept, so that concatenating the tokens reproduces the input
byte-for-byte. -/

/-- Two characters are in the same run when they agree on whitespace-ness. -/
def sameClass (a b : Char) : Bool := a.isWhitespace == b.isWhitespace

/-- Split a character list into maximal runs of same whitespace-class. -/
def chunkRuns : List Char → List (List Char)
  | [] => []
  | c :: cs =>
    match chunkRuns cs with
    | [] => [[c]]
    | [] :: gs => [c] :: gs
    | (d :: g) :: gs =>
      if sameClass c d then (c :: d :: g) :: gs else [c] :: (d :: g) :: gs

/-- Whether a run starts with a whitespace character. -/
def headIsWs : List Char → Bool
  | [] => false
  | c :: _ => c.isWhitespace

/-- Merge each non-whitespace run with its trailing whitespace run. -/
def mergeWs : List (List Char) → List (List Char)
  | [] => []
  | [g] => [g]
  | g :: g2 :: rest =>
    if !headIsWs g && headIsWs g2 then (g ++ g2) :: mergeWs rest
    else g :: mergeWs (g2 :: rest)

/-- Words-mode tokens: non-whitespace runs with trailing whitespace. -/
def tokenizeWords (s : String) : List String :=
  (mergeWs (chunkRuns s.data)).map (fun l => String.mk l)

/-- Lines-mode tokens: each line keeps its terminating newline. -/
def tokLines : List Char → List (List Char)
  | [] => []
  | c :: cs =>
    if c = '\n' then [c] :: tokLines cs
    else
      match tokLines cs with
      | [] => [[c]]
      | g :: gs => (c :: g) :: gs

/-- Lines-mode tokenization of a string. -/
def tokenizeLines (s : String) : List String :=
  (tokLines s.data).map (fun l => String.mk l)

/-- Tokenization dispatch on the diff mode. -/
def tokenize : Mode → String → List String
  | Mode.words, s => tokenizeWords s
  | Mode.lines, s => tokenizeLines s

/- ### Sequence diff engine (modelled from the spec)

`Modelled from the spec:` the engine (`diffWordsWithSpace` / `diffLines`
from the `diff` package) is absent from the repository; per spec section
4.2 it finds a longest common subsequence of tokens and emits Removed
runs for left-only tokens, Inserted runs for right-only tokens and
Unchanged runs for common tokens, in document order, with adjacent
same-kind runs merged.  `lcsF` carries explicit fuel (always called with
fuel at least the summed lengths) so that it computes by reduction. -/

/-- Longest common subsequence of two token lists, fuelled. -/
def lcsF : Nat → List String → List String → List String
  | 0, _, _ => []
  | _ + 1, [], _ => []
  | _ + 1, _, [] => []
  | n + 1, a :: as, b :: bs =>
    if a = b then a :: lcsF n as bs
    else
      let c1 := lcsF n (a :: as) bs
      let c2 := lcsF n as (b :: bs)
      if c1.length < c2.length then c2 else c1

/-- Longest common subsequence with sufficient fuel. -/
def lcs (l r : List String) : List String := lcsF (l.length + r.length) l r

/-- Walk both token lists guided by a common subsequence, emitting one
tagged token per step: left-only tokens before the next common token are
Removed, right-only ones Inserted, the common token Unchanged. -/
def alignWith : List String → List String → List String → List (Kind × String)
  | l, r, [] =>
    l.map (fun v => (Kind.removed, v)) ++ r.map (fun v => (Kind.inserted, v))
  | l, r, c :: cs =>
    if l.contains c && r.contains c then
      let lpre := l.takeWhile (fun x => x != c)
      let lrest := (l.dropWhile (fun x => x != c)).tail
      let rpre := r.takeWhile (fun x => x != c)
      let rrest := (r.dropWhile (fun x => x != c)).tail
      lpre.map (fun v => (Kind.removed, v)) ++
        rpre.map (fun v => (Kind.inserted, v)) ++
        (Kind.unchanged, c) :: alignWith lrest rrest cs
    else
      l.map (fun v => (Kind.removed, v)) ++ r.map (fun v => (Kind.inserted, v))

/-- Merge adjacent same-kind tagged tokens into maximal segments. -/
def groupSegs : List (Kind × String) → List Seg
  | [] => []
  | (k, v) :: rest =>
    match groupSegs rest with
    | [] => [⟨k, v⟩]
    | s :: ss => if s.kind = k then ⟨k, v ++ s.value⟩ :: ss else ⟨k, v⟩ :: s :: ss

/-- The edit script for two input strings under a diff mode
(`diffLines` / `diffWordsWithSpace` call sites, server.js lines 631-634). -/
def diffParts (mode : Mode) (left right : String) : List Seg :=
  let lt := tokenize mode left
  let rt := tokenize mode right
  groupSegs (alignWith lt rt (lcs lt rt))

/- ### Word counting (server.js lines 51-56)

`WORD_RE = /[\p{L}\p{N}]+(?:[’'\-][\p{L}\p{N}]+)*/gu`; `countWords`
returns the number of matches.  The scanner below models the global
regex scan: a match starts at an alphanumeric character, greedily
consumes alphanumerics, and crosses a single apostrophe/hyphen only when
an alphanumeric follows.  The Unicode classes are modelled on their
ASCII range. -/

/-- A character matched by `[\p{L}\p{N}]` (modelled on ASCII). -/
def isWordChar (c : Char) : Bool := c.isAlphanum

/-- A joining character of the word regex: apostrophes and hyphen. -/
def isJoin (c : Char) : Bool := c = '\'' || c = '-' || c = '’'

/-- Whether a character list starts with a word character. -/
def headIsWord : List Char → Bool
  | [] => false
  | d :: _ => isWordChar d

/-- Regex-scan word counter; the flag records being inside a match. -/
def cwAux : List Char → Bool → Nat
  | [], _ => 0
  | c :: cs, inw =>
    if isWordChar c then (if inw then 0 else 1) + cwAux cs true
    else if inw && isJoin c && headIsWord cs then cwAux cs true
    else cwAux cs false

/-- `countWords` (server.js line 53): number of `WORD_RE` matches. -/
def countWords (s : String) : Nat := cwAux s.data false

/- ### Logical line counting (server.js lines 588-595). -/

/-- JS `value.split("\n")` on the character list; `[""]` for empty input. -/
def splitNl : List Char → List (List Char)
  | [] => [[]]
  | c :: cs =>
    if c = '\n' then [] :: splitNl cs
    else
      match splitNl cs with
      | [] => [[c]]
      | g :: gs => (c :: g) :: gs

/-- `splitLinesPreserve` (server.js lines 205-209): split on newlines,
keeping a trailing empty line when the value ends with a newline. -/
def splitLinesPreserve (v : String) : List String :=
  (splitNl v.data).map (fun l => String.mk l)

/-- `countLogicalLines` (server.js lines 588-595). -/
def countLogicalLines (v : String) : Nat :=
  if v = "" then 0
  else
    let lines := splitNl v.data
    if 1 < lines.length ∧ lines.getLast? = some [] then lines.length - 1
    else lines.length

/- ### Summary aggregation (server.js lines 639-654). -/

/-- `additions`: sum of unit counts over the added parts. -/
def additionsOf (mode : Mode) (parts : List Seg) : Nat :=
  match mode with
  | Mode.lines =>
    (parts.filter (fun p => p.kind == Kind.inserted)).foldl
      (fun total p => total + countLogicalLines p.value) 0
  | Mode.words =>
    (parts.filter (fun p => p.kind == Kind.inserted)).foldl
      (fun total p => total + countWords p.value) 0

/-- `removals`: sum of unit counts over the removed parts. -/
def removalsOf (mode : Mode) (parts : List Seg) : Nat :=
  match mode with
  | Mode.lines =>
    (parts.filter (fun p => p.kind == Kind.removed)).foldl
      (fun total p => total + countLogicalLines p.value) 0
  | Mode.words =>
    (parts.filter (fun p => p.kind == Kind.removed)).foldl
      (fun total p => total + countWords p.value) 0

/-- `totalParts` of the response summary: the edit-script length. -/
def totalPartsOf (parts : List Seg) : Nat := parts.length

/- ### Renderers (server.js lines 41-49, 164-259). -/

/-- `escapeHtml` (server.js lines 41-49).  The chained `replaceAll`
calls are modelled character-wise; this is equivalent because the
replacement for `&` runs first and no replacement string contains a
character replaced later. -/
def escChar (c : Char) : List Char :=
  if c = '&' then "&amp;".data
  else if c = '<' then "&lt;".data
  else if c = '>' then "&gt;".data
  else if c = '"' then "&quot;".data
  else if c = '\'' then "&#39;".data
  else [c]

/-- HTML escaping of a whole string. -/
def escapeHtml (s : String) : String := String.mk (s.data.flatMap escChar)

/-- `" ".repeat(n)`: a run of `n` spaces. -/
def spaces (n : Nat) : String := String.mk (List.replicate n ' ')

/-- `buildDiffHtml` (server.js lines 164-177): inline words-mode render. -/
def buildDiffHtml (parts : List Seg) : String :=
  concatValues (parts.map (fun p =>
    match p.kind with
    | Kind.inserted => "<span class=\"diff-added\">" ++ escapeHtml p.value ++ "</span>"
    | Kind.removed => "<span class=\"diff-removed\">" ++ escapeHtml p.value ++ "</span>"
    | Kind.unchanged => "<span>" ++ escapeHtml p.value ++ "</span>"))

/-- The pair of strings one part pushes to the left and right streams in
`buildSideBySide` (server.js lines 179-203). -/
def wordRow (p : Seg) : String × String :=
  match p.kind with
  | Kind.inserted =>
    ("<span class=\"diff-empty\">" ++ spaces p.value.length ++ "</span>",
     "<span class=\"diff-added\">" ++ escapeHtml p.value ++ "</span>")
  | Kind.removed =>
    ("<span class=\"diff-removed\">" ++ escapeHtml p.value ++ "</span>",
     "<span class=\"diff-empty\">" ++ spaces p.value.length ++ "</span>")
  | Kind.unchanged =>
    ("<span>" ++ escapeHtml p.value ++ "</span>",
     "<span>" ++ escapeHtml p.value ++ "</span>")

/-- `buildSideBySide` (server.js lines 179-203): words-mode two-column
render, one pushed element per part on each side. -/
def buildSideBySide (parts : List Seg) : String × String :=
  (concatValues (parts.map (fun p => (wordRow p).1)),
   concatValues (parts.map (fun p => (wordRow p).2)))

/-- The pair of line blocks one logical line of a part pushes to the two
streams in `buildLineSideBySide` (server.js lines 211-240). -/
def lineRow (k : Kind) (l : String) : String × String :=
  match k with
  | Kind.inserted =>
    ("<div class=\"diff-line diff-empty\"></div>",
     "<div class=\"diff-line diff-added\">" ++ escapeHtml l ++ "</div>")
  | Kind.removed =>
    ("<div class=\"diff-line diff-removed\">" ++ escapeHtml l ++ "</div>",
     "<div class=\"diff-line diff-empty\"></div>")
  | Kind.unchanged =>
    ("<div class=\"diff-line\">" ++ escapeHtml l ++ "</div>",
     "<div class=\"diff-line\">" ++ escapeHtml l ++ "</div>")

/-- All line blocks of the side-by-side lines render, in push order. -/
def lineBlocks (parts : List Seg) : List (String × String) :=
  parts.flatMap (fun p => (splitLinesPreserve p.value).map (lineRow p.kind))

/-- `buildLineSideBySide` (server.js lines 211-240). -/
def buildLineSideBySide (parts : List Seg) : String × String :=
  ("<div class=\"diff-lines\">" ++ concatValues ((lineBlocks parts).map (fun r => r.1)) ++ "</div>",
   "<div class=\"diff-lines\">" ++ concatValues ((lineBlocks parts).map (fun r => r.2)) ++ "</div>")

/- ### Change-excerpt collector (server.js lines 360-388). -/

/-- JS `String.prototype.toLowerCase`, modelled character-wise. -/
def lowerStr (s : String) : String := String.mk (s.data.map Char.toLower)

/-- `collapseWhitespace` (server.js line 366): `/\s+/g → " "` then trim,
modelled as joining the non-whitespace runs with single spaces. -/
def collapseWhitespace (s : String) : String :=
  String.intercalate " "
    (((chunkRuns s.data).filter (fun g => !headIsWs g)).map (fun g => String.mk g))

/-- `truncateText` (server.js lines 360-364).  For `maxLen = 0` the JS
`slice(0, -1)` drops the final character; otherwise it keeps the first
`maxLen - 1` characters, and an ellipsis is appended. -/
def truncateText (t : String) (maxLen : Nat) : String :=
  if t.length ≤ maxLen then t
  else if maxLen = 0 then String.mk (t.data.take (t.length - 1)) ++ "…"
  else String.mk (t.data.take (maxLen - 1)) ++ "…"

/-- Loop body state of `collectDiffSnippets` (server.js lines 368-388):
the shared `seen` set and the two buckets. -/
def collectAux (maxSnippets maxLen : Nat) :
    List Seg → List String → List String → List String → List String × List String
  | [], _, added, removed => (added, removed)
  | p :: ps, seen, added, removed =>
    match p.kind with
    | Kind.unchanged => collectAux maxSnippets maxLen ps seen added removed
    | Kind.inserted =>
      if maxSnippets ≤ added.length then collectAux maxSnippets maxLen ps seen added removed
      else
        let cleaned := collapseWhitespace p.value
        if cleaned.length < 4 then collectAux maxSnippets maxLen ps seen added removed
        else
          let snippet := truncateText cleaned maxLen
          let key := lowerStr snippet
          if seen.contains key then collectAux maxSnippets maxLen ps seen added removed
          else
            let added2 := added ++ [snippet]
            if maxSnippets ≤ added2.length ∧ maxSnippets ≤ removed.length then (added2, removed)
            else collectAux maxSnippets maxLen ps (key :: seen) added2 removed
    | Kind.removed =>
      if maxSnippets ≤ removed.length then collectAux maxSnippets maxLen ps seen added removed
      else
        let cleaned := collapseWhitespace p.value
        if cleaned.length < 4 then collectAux maxSnippets maxLen ps seen added removed
        else
          let snippet := truncateText cleaned maxLen
          let key := lowerStr snippet
          if seen.contains key then collectAux maxSnippets maxLen ps seen added removed
          else
            let removed2 := removed ++ [snippet]
            if maxSnippets ≤ added.length ∧ maxSnippets ≤ removed2.length then (added, removed2)
            else collectAux maxSnippets maxLen ps (key :: seen) added removed2

/-- `collectDiffSnippets` (server.js lines 368-388); the defaults at the
call site are `maxSnippets = 12`, `maxLen = 220`. -/
def collectDiffSnippets (parts : List Seg) (maxSnippets maxLen : Nat) :
    List String × List String :=
  collectAux maxSnippets maxLen parts [] [] []

/- ### Structured tree differ (server.js lines 289-338). -/

/-- JSON-like values; numbers are modelled as integers (the numbers in
the scenarios are integral). -/
inductive JValue where
  | null
  | bool (b : Bool)
  | num (n : Int)
  | str (s : String)
  | arr (xs : List JValue)
  | obj (fields : List (String × JValue))
deriving Repr

/-- Change-record type tags of `diffStructured`. -/
inductive CType where
  | added
  | removed
  | changed
deriving DecidableEq, Repr

/-- One change record; a JS `null` (or an absent side mapped through
`?? null`) is `JValue.null`. -/
structure SChange where
  path : String
  type : CType
  left : JValue
  right : JValue
deriving Repr

/-- Structural size of a value, used only as recursion fuel. -/
def jsize : JValue → Nat
  | JValue.null => 1
  | JValue.bool _ => 1
  | JValue.num _ => 1
  | JValue.str _ => 1
  | JValue.arr xs => 1 + (xs.attach.map (fun x => jsize x.1)).sum
  | JValue.obj fs => 1 + (fs.attach.map (fun x => jsize x.1.2)).sum
decreasing_by
  · have h := List.sizeOf_lt_of_mem x.2
    simp
    omega
  · have h := List.sizeOf_lt_of_mem x.2
    obtain ⟨⟨a, b⟩, hx⟩ := x
    simp at h ⊢
    omega

/-- JS strict equality restricted to the primitive values compared in
the final branch of `walk` (both sides non-array non-object there). -/
def scalarEq : JValue → JValue → Bool
  | JValue.null, JValue.null => true
  | JValue.bool a, JValue.bool b => a == b
  | JValue.num a, JValue.num b => a == b
  | JValue.str a, JValue.str b => a == b
  | _, _ => false

/-- Whether a value is primitive (not an array, not an object). -/
def isScalar : JValue → Bool
  | JValue.arr _ => false
  | JValue.obj _ => false
  | _ => true

/-- Keep-first deduplication with an explicit seen accumulator,
modelling the JS `Set` insertion order. -/
def dedupAux : List String → List String → List String
  | [], _ => []
  | k :: ks, seen =>
    if seen.contains k then dedupAux ks seen else k :: dedupAux ks (k :: seen)

/-- `new Set([...Object.keys(a), ...Object.keys(b)])` in insertion order. -/
def unionKeys (fa fb : List (String × JValue)) : List String :=
  dedupAux (fa.map Prod.fst ++ fb.map Prod.fst) []

/-- `path ? path.key : key` for object descent. -/
def childPath (p k : String) : String := if p = "" then k else p ++ "." ++ k

/-- `walk` (server.js lines 292-334).  `none` models a JS `undefined`
side; the recursion carries fuel (one unit per nesting level) so that it
is structural — `diffStructured` supplies enough for any input. -/
def walkF : Nat → String → Option JValue → Option JValue → List SChange
  | 0, _, _, _ => []
  | _ + 1, _, none, none => []
  | _ + 1, p, none, some b => [⟨p, CType.added, JValue.null, b⟩]
  | _ + 1, p, some a, none => [⟨p, CType.removed, a, JValue.null⟩]
  | n + 1, p, some a, some b =>
    match a, b with
    | JValue.arr xs, JValue.arr ys =>
      (List.range (max xs.length ys.length)).flatMap
        (fun i => walkF n (p ++ "[" ++ toString i ++ "]") xs[i]? ys[i]?)
    | JValue.arr xs, b => [⟨p, CType.changed, JValue.arr xs, b⟩]
    | a, JValue.arr ys => [⟨p, CType.changed, a, JValue.arr ys⟩]
    | JValue.obj fa, JValue.obj fb =>
      (unionKeys fa fb).flatMap
        (fun k => walkF n (childPath p k) (fa.lookup k) (fb.lookup k))
    | JValue.obj fa, b => [⟨p, CType.changed, JValue.obj fa, b⟩]
    | a, JValue.obj fb => [⟨p, CType.changed, a, JValue.obj fb⟩]
    | a, b => if scalarEq a b then [] else [⟨p, CType.changed, a, b⟩]

/-- `diffStructured` (server.js lines 289-338): `walk("", left, right)`
with fuel exceeding any nesting depth of the two values. -/
def diffStructured (left right : JValue) : List SChange :=
  walkF (jsize left + jsize right) "" (some left) (some right)

/- ### Structured diff at the response level (server.js lines 656-699). -/

/-- JS truthiness of a structured-output value. -/
def truthy : JValue → Bool
  | JValue.null => false
  | JValue.bool b => b
  | JValue.num n => n != 0
  | JValue.str s => s != ""
  | JValue.arr _ => true
  | JValue.obj _ => true

/-- `structuredDiff` (server.js lines 656-659): the tree differ runs
only when both extraction results carry a truthy structured output
(`none` models an absent / `null` value). -/
def structuredDiffResult : Option JValue → Option JValue → List SChange
  | some a, some b => if truthy a && truthy b then diffStructured a b else []
  | _, _ => []

/-- The `structuredDiff` response field (server.js lines 696-699):
the full total and the first 200 change records. -/
def responseStructuredDiff (changes : List SChange) : Nat × List SChange :=
  (changes.length, changes.take 200)

/- ### Projections used to state the reconstruction property. -/

/-- The left projection of a tagged token list: values of the tokens
that belong to the left input (Unchanged and Removed). -/
def projL (ps : List (Kind × String)) : List String :=
  (ps.filter (fun q => q.1 != Kind.inserted)).map Prod.snd

/-- The right projection: values of Unchanged and Inserted tokens. -/
def projR (ps : List (Kind × String)) : List String :=
  (ps.filter (fun q => q.1 != Kind.removed)).map Prod.snd

/-- Concatenation of the values of all Unchanged and Removed segments. -/
def leftConcat (segs : List Seg) : String :=
  concatValues ((segs.filter (fun s => s.kind != Kind.inserted)).map Seg.value)

/-- Concatenation of the values of all Unchanged and Inserted segments. -/
def rightConcat (segs : List Seg) : String :=
  concatValues ((segs.filter (fun s => s.kind != Kind.removed)).map Seg.value)

/- ### Concrete structured records of spec Scenario C. -/

/-- Left structured record `{invoice_number:"1", total:10}`. -/
def sampleLeft : JValue :=
  JValue.obj [("invoice_number", JValue.str "1"), ("total", JValue.num 10)]

/-- Right structured record `{invoice_number:"2", total:10}`. -/
def sampleRight : JValue :=
  JValue.obj [("invoice_number", JValue.str "2"), ("total", JValue.num 10)]

/- ### Declarative word counting (spec section 4.1)

Spec-side definition for the refinement claim about `countWords`: a word
is a maximal run of letters/digits optionally joined by a single
apostrophe or hyphen.  `specWordCount` counts the positions where such a
run starts, looking back at the previous two characters: an
alphanumeric position starts a word unless the previous character is
alphanumeric, or the previous character is a single joiner preceded by
an alphanumeric. -/

/-- Whether the previous character was alphanumeric. -/
def prevWord : Option Char → Bool
  | some d => isWordChar d
  | none => false

/-- Whether the previous character was a joiner directly preceded by an
alphanumeric character (so the joiner sits inside a word). -/
def prevJoinAfterWord : Option Char → Option Char → Bool
  | some d, some e => isJoin d && isWordChar e
  | _, _ => false

/-- Whether an alphanumeric character at the scan head starts a new
word, given the previous two characters. -/
def isStart (p2 p1 : Option Char) (c : Char) : Bool :=
  isWordChar c && !prevWord p1 && !prevJoinAfterWord p1 p2

/-- Count word-start positions, carrying the previous two characters. -/
def swAux : Option Char → Option Char → List Char → Nat
  | _, _, [] => 0
  | p2, p1, c :: cs => (if isStart p2 p1 c then 1 else 0) + swAux p1 (some c) cs

/-- Declarative word count of a string (spec section 4.1 definition). -/
def specWordCount (s : String) : Nat := swAux none none s.data

/-- Scanner state corresponding to a lookbehind of two characters: the
scan is inside a word when the previous character is alphanumeric, or
when it is a single joiner preceded by an alphanumeric and the next
character continues the word. -/
def inwOf (p2 p1 : Option Char) (cs : List Char) : Bool :=
  prevWord p1 || (prevJoinAfterWord p1 p2 && headIsWord cs)

end Pulse
namespace Pulse

theorem concatValues_cons (a : String) (l : List String) :
    concatValues (a :: l) = a ++ concatValues l := rfl

theorem concatValues_map_mk (ls : List (List Char)) :
    concatValues (ls.map (fun l => String.mk l)) = String.mk ls.flatten := by
  induction ls with
  | nil => rfl
  | cons a ls ih => simp only [List.map_cons, concatValues_cons, ih, List.flatten_cons]; rfl

theorem chunkRuns_flatten (cs : List Char) : (chunkRuns cs).flatten = cs := by
  induction cs with
  | nil => rfl
  | cons c cs ih =>
    simp only [chunkRuns]
    cases h : chunkRuns cs with
    | nil =>
      rw [h] at ih; simp at ih; simp [← ih]
    | cons g gs =>
      rw [h] at ih
      cases g with
      | nil => simpa using ih
      | cons d g =>
        by_cases hs : sameClass c d
        · simp only [if_pos hs, List.flatten_cons] at ih ⊢
          simp [← ih]
        · simp only [if_neg hs, List.flatten_cons] at ih ⊢
          simp [← ih]

theorem mergeWs_flatten (gs : List (List Char)) : (mergeWs gs).flatten = gs.flatten := by
  induction gs using mergeWs.induct with
  | case1 => rfl
  | case2 g => rfl
  | case3 g g2 rest h ih => simp [mergeWs, h, ih]
  | case4 g g2 rest h ih => simp [mergeWs, h, ih]

theorem tokLines_flatten (cs : List Char) : (tokLines cs).flatten = cs := by
  induction cs with
  | nil => rfl
  | cons c cs ih =>
    simp only [tokLines]
    by_cases hc : c = '\n'
    · simp [hc, ih]
    · simp only [if_neg hc]
      cases h : tokLines cs with
      | nil => rw [h] at ih; simp at ih; simp [← ih]
      | cons g gs => rw [h] at ih; simpa using ih

theorem tokenize_concat (mode : Mode) (s : String) :
    concatValues (tokenize mode s) = s := by
  cases mode with
  | words =>
    show concatValues (tokenizeWords s) = s
    rw [tokenizeWords, concatValues_map_mk, mergeWs_flatten, chunkRuns_flatten]
  | lines =>
    show concatValues (tokenizeLines s) = s
    rw [tokenizeLines, concatValues_map_mk, tokLines_flatten]

end Pulse
namespace Pulse

theorem projL_append (a b : List (Kind × String)) :
    projL (a ++ b) = projL a ++ projL b := by
  simp [projL, List.filter_append]

theorem projR_append (a b : List (Kind × String)) :
    projR (a ++ b) = projR a ++ projR b := by
  simp [projR, List.filter_append]

theorem projL_removedTags (l : List String) :
    projL (l.map (fun v => (Kind.removed, v))) = l := by
  induction l with
  | nil => rfl
  | cons a l ih => simpa [projL, List.filter_cons] using ih

theorem projL_insertedTags (l : List String) :
    projL (l.map (fun v => (Kind.inserted, v))) = [] := by
  simp [projL]

theorem projR_removedTags (l : List String) :
    projR (l.map (fun v => (Kind.removed, v))) = [] := by
  simp [projR]

theorem projR_insertedTags (l : List String) :
    projR (l.map (fun v => (Kind.inserted, v))) = l := by
  induction l with
  | nil => rfl
  | cons a l ih => simpa [projR, List.filter_cons] using ih

theorem projL_unchanged_cons (c : String) (ps : List (Kind × String)) :
    projL ((Kind.unchanged, c) :: ps) = c :: projL ps := by
  simp [projL, List.filter_cons]

theorem projR_unchanged_cons (c : String) (ps : List (Kind × String)) :
    projR ((Kind.unchanged, c) :: ps) = c :: projR ps := by
  simp [projR, List.filter_cons]

theorem contains_split (l : List String) (c : String) (h : l.contains c = true) :
    l.takeWhile (fun x => x != c) ++ c :: (l.dropWhile (fun x => x != c)).tail = l := by
  induction l with
  | nil => simp at h
  | cons a as ih =>
    by_cases hac : a = c
    · subst hac
      simp [List.takeWhile_cons, List.dropWhile_cons]
    · have h2 : as.contains c = true := by
        simp [List.contains_cons] at h
        rcases h with h | h
        · exact absurd h.symm hac
        · simpa using h
      have hne : (a != c) = true := by simp [hac]
      simp [List.takeWhile_cons, List.dropWhile_cons, hne, ih h2]

theorem alignWith_projL (cs : List String) : ∀ l r, projL (alignWith l r cs) = l := by
  induction cs with
  | nil =>
    intro l r
    simp [alignWith, projL_append, projL_removedTags, projL_insertedTags]
  | cons c cs ih =>
    intro l r
    simp only [alignWith]
    split
    next h =>
      have hl : l.contains c = true := ((Bool.and_eq_true _ _).mp h).1
      rw [projL_append, projL_append, projL_removedTags, projL_insertedTags,
        projL_unchanged_cons, ih]
      simpa using contains_split l c hl
    next h =>
      rw [projL_append, projL_removedTags, projL_insertedTags]
      simp

theorem alignWith_projR (cs : List String) : ∀ l r, projR (alignWith l r cs) = r := by
  induction cs with
  | nil =>
    intro l r
    simp [alignWith, projR_append, projR_removedTags, projR_insertedTags]
  | cons c cs ih =>
    intro l r
    simp only [alignWith]
    split
    next h =>
      have hr : r.contains c = true := ((Bool.and_eq_true _ _).mp h).2
      rw [projR_append, projR_append, projR_removedTags, projR_insertedTags,
        projR_unchanged_cons, ih]
      simpa using contains_split r c hr
    next h =>
      rw [projR_append, projR_removedTags, projR_insertedTags]
      simp

end Pulse
namespace Pulse

theorem leftConcat_nil : leftConcat [] = "" := rfl

theorem rightConcat_nil : rightConcat [] = "" := rfl

theorem leftConcat_cons (k : Kind) (v : String) (segs : List Seg) :
    leftConcat (⟨k, v⟩ :: segs) =
      if k = Kind.inserted then leftConcat segs else v ++ leftConcat segs := by
  by_cases hk : k = Kind.inserted
  · simp [leftConcat, List.filter_cons, hk]
  · have : (Seg.mk k v).kind != Kind.inserted := by
      simp [hk]
    simp [leftConcat, List.filter_cons, this, hk, concatValues_cons]

theorem rightConcat_cons (k : Kind) (v : String) (segs : List Seg) :
    rightConcat (⟨k, v⟩ :: segs) =
      if k = Kind.removed then rightConcat segs else v ++ rightConcat segs := by
  by_cases hk : k = Kind.removed
  · simp [rightConcat, List.filter_cons, hk]
  · have : (Seg.mk k v).kind != Kind.removed := by
      simp [hk]
    simp [rightConcat, List.filter_cons, this, hk, concatValues_cons]

theorem projL_cons (k : Kind) (v : String) (ps : List (Kind × String)) :
    concatValues (projL ((k, v) :: ps)) =
      if k = Kind.inserted then concatValues (projL ps)
      else v ++ concatValues (projL ps) := by
  by_cases hk : k = Kind.inserted
  · simp [projL, List.filter_cons, hk]
  · have : ((k, v) : Kind × String).1 != Kind.inserted := by simp [hk]
    simp [projL, List.filter_cons, this, hk, concatValues_cons]

theorem projR_cons (k : Kind) (v : String) (ps : List (Kind × String)) :
    concatValues (projR ((k, v) :: ps)) =
      if k = Kind.removed then concatValues (projR ps)
      else v ++ concatValues (projR ps) := by
  by_cases hk : k = Kind.removed
  · simp [projR, List.filter_cons, hk]
  · have : ((k, v) : Kind × String).1 != Kind.removed := by simp [hk]
    simp [projR, List.filter_cons, this, hk, concatValues_cons]

theorem leftConcat_groupSegs (ps : List (Kind × String)) :
    leftConcat (groupSegs ps) = concatValues (projL ps) := by
  induction ps with
  | nil => rfl
  | cons q ps ih =>
    obtain ⟨k, v⟩ := q
    simp only [groupSegs]
    cases hg : groupSegs ps with
    | nil =>
      rw [hg] at ih
      rw [projL_cons, ← ih, leftConcat_nil, leftConcat_cons, leftConcat_nil]
    | cons s ss =>
      rw [hg] at ih
      by_cases hks : s.kind = k
      · simp only [if_pos hks]
        obtain ⟨sk, sv⟩ := s
        simp only at hks
        subst hks
        rw [projL_cons, ← ih, leftConcat_cons, leftConcat_cons]
        by_cases hk : sk = Kind.inserted
        · simp [hk]
        · simp [hk, String.append_assoc]
      · simp only [if_neg hks]
        rw [projL_cons, ← ih, leftConcat_cons]

theorem rightConcat_groupSegs (ps : List (Kind × String)) :
    rightConcat (groupSegs ps) = concatValues (projR ps) := by
  induction ps with
  | nil => rfl
  | cons q ps ih =>
    obtain ⟨k, v⟩ := q
    simp only [groupSegs]
    cases hg : groupSegs ps with
    | nil =>
      rw [hg] at ih
      rw [projR_cons, ← ih, rightConcat_nil, rightConcat_cons, rightConcat_nil]
    | cons s ss =>
      rw [hg] at ih
      by_cases hks : s.kind = k
      · simp only [if_pos hks]
        obtain ⟨sk, sv⟩ := s
        simp only at hks
        subst hks
        rw [projR_cons, ← ih, rightConcat_cons, rightConcat_cons]
        by_cases hk : sk = Kind.removed
        · simp [hk]
        · simp [hk, String.append_assoc]
      · simp only [if_neg hks]
        rw [projR_cons, ← ih, rightConcat_cons]

theorem chain_groupSegs (ps : List (Kind × String)) :
    List.Chain' (fun a b => a.kind ≠ b.kind) (groupSegs ps) := by
  induction ps with
  | nil => exact List.chain'_nil
  | cons q ps ih =>
    obtain ⟨k, v⟩ := q
    simp only [groupSegs]
    cases hg : groupSegs ps with
    | nil => simp
    | cons s ss =>
      rw [hg] at ih
      by_cases hks : s.kind = k
      · simp only [if_pos hks]
        rcases List.chain'_cons'.mp ih with ⟨hhead, htail⟩
        refine List.chain'_cons'.mpr ⟨?_, htail⟩
        intro y hy
        have := hhead y hy
        simpa [← hks] using this
      · simp only [if_neg hks]
        refine List.chain'_cons'.mpr ⟨?_, ih⟩
        intro y hy
        simp only [List.head?_cons, Option.mem_def, Option.some.injEq] at hy
        subst hy
        simp
        exact fun hcon => hks hcon.symm

end Pulse
namespace Pulse

theorem data_eq_nil_iff (s : String) : s.data = [] ↔ s = "" := by
  constructor
  · intro h
    exact String.ext h
  · intro h
    subst h
    rfl

theorem chunkRuns_ne_nil (c : Char) (cs : List Char) : chunkRuns (c :: cs) ≠ [] := by
  simp only [chunkRuns]
  split
  · simp
  · simp
  · split <;> simp

theorem mergeWs_ne_nil (gs : List (List Char)) (h : gs ≠ []) : mergeWs gs ≠ [] := by
  match gs with
  | [] => exact absurd rfl h
  | [g] => simp [mergeWs]
  | g :: g2 :: rest =>
    simp only [mergeWs]
    split <;> simp

theorem tokLines_ne_nil (c : Char) (cs : List Char) : tokLines (c :: cs) ≠ [] := by
  simp only [tokLines]
  split
  · simp
  · split <;> simp

theorem tokenize_ne_nil (mode : Mode) (s : String) (h : s ≠ "") :
    tokenize mode s ≠ [] := by
  have hd : s.data ≠ [] := fun hc => h ((data_eq_nil_iff s).mp hc)
  cases mode with
  | words =>
    show tokenizeWords s ≠ []
    rw [tokenizeWords]
    have h1 : chunkRuns s.data ≠ [] := by
      cases hc : s.data with
      | nil => exact absurd hc hd
      | cons c cs => exact chunkRuns_ne_nil c cs
    have h2 := mergeWs_ne_nil _ h1
    simpa using h2
  | lines =>
    show tokenizeLines s ≠ []
    rw [tokenizeLines]
    have h1 : tokLines s.data ≠ [] := by
      cases hc : s.data with
      | nil => exact absurd hc hd
      | cons c cs => exact tokLines_ne_nil c cs
    simpa using h1

theorem lcsF_self : ∀ (n : Nat) (l : List String), l.length ≤ n → lcsF n l l = l := by
  intro n
  induction n with
  | zero =>
    intro l h
    have : l = [] := List.eq_nil_of_length_eq_zero (Nat.le_zero.mp h)
    subst this
    rfl
  | succ n ih =>
    intro l h
    cases l with
    | nil => rfl
    | cons a as =>
      have has : as.length ≤ n := Nat.le_of_succ_le_succ (by simpa using h)
      simp [lcsF, ih as has]

theorem lcs_self (l : List String) : lcs l l = l :=
  lcsF_self (l.length + l.length) l (by omega)

theorem alignWith_self (l : List String) :
    alignWith l l l = l.map (fun v => (Kind.unchanged, v)) := by
  induction l with
  | nil => rfl
  | cons c cs ih =>
    have hcond : ((c :: cs).contains c && (c :: cs).contains c) = true := by
      simp [List.contains_cons]
    simp only [alignWith, hcond, if_true, List.takeWhile_cons, bne_self_eq_false,
      List.dropWhile_cons, Bool.false_eq_true, if_false, List.map_nil, List.tail_cons,
      List.nil_append, ih, List.map_cons]

theorem groupSegs_constKind (k : Kind) :
    ∀ (l : List String), l ≠ [] →
      groupSegs (l.map (fun v => (k, v))) = [⟨k, concatValues l⟩] := by
  intro l
  induction l with
  | nil => intro h; exact absurd rfl h
  | cons a as ih =>
    intro _
    cases has : as with
    | nil => simp [groupSegs, concatValues]
    | cons b bs =>
      have hne : as ≠ [] := by simp [has]
      rw [← has]
      simp only [List.map_cons, groupSegs, ih hne, concatValues_cons]
      simp

theorem diffParts_self (mode : Mode) (s : String) :
    diffParts mode s s = if s = "" then [] else [⟨Kind.unchanged, s⟩] := by
  by_cases hs : s = ""
  · subst hs
    simp only [if_pos rfl]
    cases mode <;> rfl
  · rw [if_neg hs]
    have ht := tokenize_ne_nil mode s hs
    simp only [diffParts]
    rw [lcs_self, alignWith_self, groupSegs_constKind _ _ ht, tokenize_concat]

theorem additionsOf_no_inserted (mode : Mode) (segs : List Seg)
    (h : segs.filter (fun p => p.kind == Kind.inserted) = []) :
    additionsOf mode segs = 0 := by
  cases mode <;> simp [additionsOf, h]

theorem removalsOf_no_removed (mode : Mode) (segs : List Seg)
    (h : segs.filter (fun p => p.kind == Kind.removed) = []) :
    removalsOf mode segs = 0 := by
  cases mode <;> simp [removalsOf, h]

/-- C1: for every pair of input strings and either diff mode, the edit
script reconstructs both inputs — concatenating Unchanged and Removed
segment values yields the left input, and Unchanged and Inserted values
the right input. -/
theorem c1_reconstruction (mode : Mode) (left right : String) :
    leftConcat (diffParts mode left right) = left ∧
    rightConcat (diffParts mode left right) = right := by
  constructor
  · simp only [diffParts]
    rw [leftConcat_groupSegs, alignWith_projL, tokenize_concat]
  · simp only [diffParts]
    rw [rightConcat_groupSegs, alignWith_projR, tokenize_concat]

/-- C7: for every pair of input strings and either diff mode, the edit
script is maximal — no two adjacent segments share the same kind. -/
theorem c7_maximality (mode : Mode) (left right : String) :
    List.Chain' (fun a b => a.kind ≠ b.kind) (diffParts mode left right) := by
  simp only [diffParts]
  exact chain_groupSegs _

/-- C6: diffing a string against itself yields one Unchanged segment
(none when the string is empty) with zero additions and removals; for
two empty inputs the edit script is empty, `totalParts` is `0`, and the
rendered outputs are empty. -/
theorem c6_identity (mode : Mode) (s : String) :
    diffParts mode s s = (if s = "" then [] else [⟨Kind.unchanged, s⟩]) ∧
    additionsOf mode (diffParts mode s s) = 0 ∧
    removalsOf mode (diffParts mode s s) = 0 ∧
    diffParts mode "" "" = [] ∧
    totalPartsOf (diffParts mode "" "") = 0 ∧
    buildDiffHtml (diffParts mode "" "") = "" ∧
    buildSideBySide (diffParts mode "" "") = ("", "") ∧
    lineBlocks (diffParts mode "" "") = [] := by
  have hself := diffParts_self mode s
  have hempty : diffParts mode "" "" = [] := by
    rw [diffParts_self]
    simp
  have hfilterIns : (diffParts mode s s).filter (fun p => p.kind == Kind.inserted) = [] := by
    rw [hself]
    by_cases hs : s = "" <;> simp [hs]
  have hfilterRem : (diffParts mode s s).filter (fun p => p.kind == Kind.removed) = [] := by
    rw [hself]
    by_cases hs : s = "" <;> simp [hs]
  refine ⟨hself, additionsOf_no_inserted mode _ hfilterIns,
    removalsOf_no_removed mode _ hfilterRem, hempty, ?_, ?_, ?_, ?_⟩
  · rw [hempty]; rfl
  · rw [hempty]; rfl
  · rw [hempty]; rfl
  · rw [hempty]; rfl

end Pulse
namespace Pulse

/-- C3: the side-by-side renderer keeps both streams aligned per
segment: in lines mode every segment contributes the same number of
line-blocks to the left and right streams, the placeholder side getting
one empty line-block per line of the opposing content; in words mode
the placeholder pushed for an Inserted or Removed segment is a run of
spaces whose character length equals the length of the segment value. -/
theorem c3_side_by_side_alignment (k : Kind) (v : String) :
    ((lineBlocks [⟨k, v⟩]).map Prod.fst).length =
      ((lineBlocks [⟨k, v⟩]).map Prod.snd).length ∧
    ((lineBlocks [⟨k, v⟩]).map Prod.fst).length = (splitLinesPreserve v).length ∧
    (lineBlocks [⟨Kind.inserted, v⟩]).map Prod.fst =
      List.replicate (splitLinesPreserve v).length
        "<div class=\"diff-line diff-empty\"></div>" ∧
    (lineBlocks [⟨Kind.removed, v⟩]).map Prod.snd =
      List.replicate (splitLinesPreserve v).length
        "<div class=\"diff-line diff-empty\"></div>" ∧
    (wordRow ⟨Kind.inserted, v⟩).1 =
      "<span class=\"diff-empty\">" ++ spaces v.length ++ "</span>" ∧
    (wordRow ⟨Kind.removed, v⟩).2 =
      "<span class=\"diff-empty\">" ++ spaces v.length ++ "</span>" ∧
    (spaces v.length).data = List.replicate v.length ' ' ∧
    (spaces v.length).length = v.length := by
  refine ⟨?_, ?_, ?_, ?_, rfl, rfl, rfl, ?_⟩
  · simp [lineBlocks]
  · simp [lineBlocks]
  · simp only [lineBlocks, List.flatMap_cons, List.flatMap_nil, List.append_nil, List.map_map]
    have hconst : (Prod.fst ∘ lineRow Kind.inserted) =
        fun _ => "<div class=\"diff-line diff-empty\"></div>" := by
      funext l
      rfl
    rw [hconst, List.map_const']
  · simp only [lineBlocks, List.flatMap_cons, List.flatMap_nil, List.append_nil, List.map_map]
    have hconst : (Prod.snd ∘ lineRow Kind.removed) =
        fun _ => "<div class=\"diff-line diff-empty\"></div>" := by
      funext l
      rfl
    rw [hconst, List.map_const']
  · show (String.mk (List.replicate v.length ' ')).length = v.length
    show (List.replicate v.length ' ').length = v.length
    simp

/-- C4 counterexample: for left `"a\nb\n"` and right `"a\nc\n"` in
lines mode the side-by-side render emits six line-blocks per side, not
the two-line output per side stated by the claim. -/
theorem c4_counterexample :
    ((lineBlocks (diffParts Mode.lines "a\nb\n" "a\nc\n")).map Prod.fst).length ≠ 2 ∧
    ((lineBlocks (diffParts Mode.lines "a\nb\n" "a\nc\n")).map Prod.snd).length ≠ 2 := by
  decide

/-- C4 (amended): for left `"a\nb\n"` and right `"a\nc\n"` in lines
mode the summary reports one addition and one removal; the edit script
is Unchanged `"a\n"`, Removed `"b\n"`, Inserted `"c\n"`, and the
side-by-side render emits six aligned line-blocks per side — row 1
`"a"` unchanged, row 2 an empty unchanged block from the trailing
newline, `"b"` on the left of row 3 with empty placeholders on the
right of rows 3-4, and `"c"` on the right of row 5 with empty
placeholders on the left of rows 5-6. -/
theorem c4_amended :
    diffParts Mode.lines "a\nb\n" "a\nc\n" =
      [⟨Kind.unchanged, "a\n"⟩, ⟨Kind.removed, "b\n"⟩, ⟨Kind.inserted, "c\n"⟩] ∧
    additionsOf Mode.lines (diffParts Mode.lines "a\nb\n" "a\nc\n") = 1 ∧
    removalsOf Mode.lines (diffParts Mode.lines "a\nb\n" "a\nc\n") = 1 ∧
    (lineBlocks (diffParts Mode.lines "a\nb\n" "a\nc\n")).map Prod.fst =
      ["<div class=\"diff-line\">a</div>",
       "<div class=\"diff-line\"></div>",
       "<div class=\"diff-line diff-removed\">b</div>",
       "<div class=\"diff-line diff-removed\"></div>",
       "<div class=\"diff-line diff-empty\"></div>",
       "<div class=\"diff-line diff-empty\"></div>"] ∧
    (lineBlocks (diffParts Mode.lines "a\nb\n" "a\nc\n")).map Prod.snd =
      ["<div class=\"diff-line\">a</div>",
       "<div class=\"diff-line\"></div>",
       "<div class=\"diff-line diff-empty\"></div>",
       "<div class=\"diff-line diff-empty\"></div>",
       "<div class=\"diff-line diff-added\">c</div>",
       "<div class=\"diff-line diff-added\"></div>"] := by
  refine ⟨by decide, by decide, by decide, by decide, by decide⟩

end Pulse
namespace Pulse

theorem prevJoinAfterWord_shift (c : Char) (p1 : Option Char) :
    prevJoinAfterWord (some c) p1 = (isJoin c && prevWord p1) := by
  cases p1 <;> simp [prevJoinAfterWord, prevWord]

theorem cw_eq_sw (cs : List Char) : ∀ (p2 p1 : Option Char),
    cwAux cs (inwOf p2 p1 cs) = swAux p2 p1 cs := by
  induction cs with
  | nil => intro p2 p1; rfl
  | cons c cs ih =>
    intro p2 p1
    by_cases hH : isWordChar c = true
    · have hin : inwOf p2 p1 (c :: cs) =
          (prevWord p1 || prevJoinAfterWord p1 p2) := by
        simp [inwOf, headIsWord, hH]
      have hnext : inwOf p1 (some c) cs = true := by
        simp [inwOf, prevWord, hH]
      have hstart : isStart p2 p1 c =
          (!prevWord p1 && !prevJoinAfterWord p1 p2) := by
        simp [isStart, hH]
      rw [show cwAux (c :: cs) (inwOf p2 p1 (c :: cs)) =
            (if inwOf p2 p1 (c :: cs) then 0 else 1) + cwAux cs true from by
          simp [cwAux, hH]]
      rw [show swAux p2 p1 (c :: cs) =
            (if isStart p2 p1 c then 1 else 0) + swAux p1 (some c) cs from rfl]
      rw [← ih p1 (some c), hnext, hin, hstart]
      cases hb1 : prevWord p1 <;> cases hb2 : prevJoinAfterWord p1 p2 <;> simp
    · have hHf : isWordChar c = false := Bool.eq_false_iff.mpr hH
      have hin : inwOf p2 p1 (c :: cs) = prevWord p1 := by
        simp [inwOf, headIsWord, hHf]
      have hnext : inwOf p1 (some c) cs =
          (prevWord p1 && isJoin c && headIsWord cs) := by
        rw [inwOf, prevWord, prevJoinAfterWord_shift]
        simp [hHf, Bool.and_assoc, Bool.and_comm]
      have hstart : isStart p2 p1 c = false := by
        simp [isStart, hHf]
      rw [show swAux p2 p1 (c :: cs) =
            (if isStart p2 p1 c then 1 else 0) + swAux p1 (some c) cs from rfl]
      rw [hstart]
      simp only [Bool.false_eq_true, if_false, Nat.zero_add]
      rw [show cwAux (c :: cs) (inwOf p2 p1 (c :: cs)) =
            (if inwOf p2 p1 (c :: cs) && isJoin c && headIsWord cs then cwAux cs true
             else cwAux cs false) from by
          simp [cwAux, hHf]]
      rw [hin, ← ih p1 (some c), hnext]
      by_cases hbr : (prevWord p1 && isJoin c && headIsWord cs) = true
      · rw [hbr]
        simp
      · have h1 : (prevWord p1 && isJoin c && headIsWord cs) = false :=
          Bool.eq_false_iff.mpr hbr
        rw [h1]
        simp

theorem countWords_eq_spec (s : String) : countWords s = specWordCount s := by
  have h := cw_eq_sw s.data none none
  have h0 : inwOf none none s.data = false := by simp [inwOf, prevWord, prevJoinAfterWord]
  rw [h0] at h
  exact h

theorem foldl_add_counts (f : Seg → Nat) (l : List Seg) :
    ∀ n : Nat, l.foldl (fun t p => t + f p) n = n + (l.map f).sum := by
  induction l with
  | nil => intro n; simp
  | cons a l ih => intro n; simp [ih, Nat.add_assoc]

/-- C8: in words mode the summary's additions (removals) equal the sum
over Inserted (Removed) segments of the number of words of the segment
value, where a word is a maximal run of letters/digits optionally
joined by a single apostrophe or hyphen — so "don't" and
"state-of-the-art" count one word each and punctuation-only runs count
zero. -/
theorem c8_words_summary (parts : List Seg) :
    additionsOf Mode.words parts =
      ((parts.filter (fun p => p.kind == Kind.inserted)).map
        (fun p => specWordCount p.value)).sum ∧
    removalsOf Mode.words parts =
      ((parts.filter (fun p => p.kind == Kind.removed)).map
        (fun p => specWordCount p.value)).sum ∧
    specWordCount "don't" = 1 ∧
    specWordCount "state-of-the-art" = 1 ∧
    specWordCount ",;. !?" = 0 ∧
    countWords "don't" = 1 ∧
    countWords "state-of-the-art" = 1 ∧
    countWords ",;. !?" = 0 := by
  refine ⟨?_, ?_, by decide, by decide, by decide, by decide, by decide, by decide⟩
  · show (parts.filter (fun p => p.kind == Kind.inserted)).foldl
      (fun total p => total + countWords p.value) 0 = _
    rw [foldl_add_counts]
    simp [countWords_eq_spec]
  · show (parts.filter (fun p => p.kind == Kind.removed)).foldl
      (fun total p => total + countWords p.value) 0 = _
    rw [foldl_add_counts]
    simp [countWords_eq_spec]

end Pulse
namespace Pulse

theorem nodup_addLeft (A R : List String) (s : String)
    (hnd : ((A ++ R).map lowerStr).Nodup)
    (hnotin : lowerStr s ∉ (A ++ R).map lowerStr) :
    (((A ++ [s]) ++ R).map lowerStr).Nodup := by
  have heq : ((A ++ [s]) ++ R).map lowerStr =
      A.map lowerStr ++ lowerStr s :: R.map lowerStr := by
    simp
  rw [heq, List.nodup_middle, List.nodup_cons]
  refine ⟨by simpa using hnotin, by simpa using hnd⟩

theorem nodup_addRight (A R : List String) (s : String)
    (hnd : ((A ++ R).map lowerStr).Nodup)
    (hnotin : lowerStr s ∉ (A ++ R).map lowerStr) :
    ((A ++ (R ++ [s])).map lowerStr).Nodup := by
  have heq : (A ++ (R ++ [s])).map lowerStr =
      (A.map lowerStr ++ R.map lowerStr) ++ lowerStr s :: [] := by
    simp
  rw [heq, List.nodup_middle, List.nodup_cons]
  refine ⟨by simpa using hnotin, by simpa using hnd⟩

theorem collectAux_inv (maxS maxL : Nat) :
    ∀ (ps : List Seg) (seen added removed : List String),
      added.length ≤ maxS →
      removed.length ≤ maxS →
      ((added ++ removed).map lowerStr).Nodup →
      (∀ k ∈ (added ++ removed).map lowerStr, seen.contains k = true) →
      (collectAux maxS maxL ps seen added removed).1.length ≤ maxS ∧
      (collectAux maxS maxL ps seen added removed).2.length ≤ maxS ∧
      (((collectAux maxS maxL ps seen added removed).1 ++
        (collectAux maxS maxL ps seen added removed).2).map lowerStr).Nodup ∧
      (∀ s ∈ (collectAux maxS maxL ps seen added removed).1,
        s ∈ added ∨ ∃ p, p ∈ ps ∧ p.kind = Kind.inserted ∧
          4 ≤ (collapseWhitespace p.value).length ∧
          s = truncateText (collapseWhitespace p.value) maxL) ∧
      (∀ s ∈ (collectAux maxS maxL ps seen added removed).2,
        s ∈ removed ∨ ∃ p, p ∈ ps ∧ p.kind = Kind.removed ∧
          4 ≤ (collapseWhitespace p.value).length ∧
          s = truncateText (collapseWhitespace p.value) maxL) := by
  intro ps
  induction ps with
  | nil =>
    intro seen added removed h1 h2 h3 _h4
    exact ⟨h1, h2, h3, fun s hs => Or.inl hs, fun s hs => Or.inl hs⟩
  | cons p ps ih =>
    intro seen added removed h1 h2 h3 h4
    have weaken :
        (collectAux maxS maxL ps seen added removed).1.length ≤ maxS ∧
        (collectAux maxS maxL ps seen added removed).2.length ≤ maxS ∧
        (((collectAux maxS maxL ps seen added removed).1 ++
          (collectAux maxS maxL ps seen added removed).2).map lowerStr).Nodup ∧
        (∀ s ∈ (collectAux maxS maxL ps seen added removed).1,
          s ∈ added ∨ ∃ q, q ∈ p :: ps ∧ q.kind = Kind.inserted ∧
            4 ≤ (collapseWhitespace q.value).length ∧
            s = truncateText (collapseWhitespace q.value) maxL) ∧
        (∀ s ∈ (collectAux maxS maxL ps seen added removed).2,
          s ∈ removed ∨ ∃ q, q ∈ p :: ps ∧ q.kind = Kind.removed ∧
            4 ≤ (collapseWhitespace q.value).length ∧
            s = truncateText (collapseWhitespace q.value) maxL) := by
      obtain ⟨a1, a2, a3, a4, a5⟩ := ih seen added removed h1 h2 h3 h4
      refine ⟨a1, a2, a3, fun s hs => ?_, fun s hs => ?_⟩
      · rcases a4 s hs with h | ⟨q, hq, hrest⟩
        · exact Or.inl h
        · exact Or.inr ⟨q, List.mem_cons_of_mem _ hq, hrest⟩
      · rcases a5 s hs with h | ⟨q, hq, hrest⟩
        · exact Or.inl h
        · exact Or.inr ⟨q, List.mem_cons_of_mem _ hq, hrest⟩
    cases hk : p.kind with
    | unchanged =>
      have hred : collectAux maxS maxL (p :: ps) seen added removed =
          collectAux maxS maxL ps seen added removed := by
        simp only [collectAux, hk]
      rw [hred]
      exact weaken
    | inserted =>
      by_cases hfull : maxS ≤ added.length
      · have hred : collectAux maxS maxL (p :: ps) seen added removed =
            collectAux maxS maxL ps seen added removed := by
          simp only [collectAux, hk, if_pos hfull]
        rw [hred]
        exact weaken
      · by_cases hshort : (collapseWhitespace p.value).length < 4
        · have hred : collectAux maxS maxL (p :: ps) seen added removed =
              collectAux maxS maxL ps seen added removed := by
            simp only [collectAux, hk, if_neg hfull, if_pos hshort]
          rw [hred]
          exact weaken
        · by_cases hseen :
              seen.contains (lowerStr (truncateText (collapseWhitespace p.value) maxL)) = true
          · have hred : collectAux maxS maxL (p :: ps) seen added removed =
                collectAux maxS maxL ps seen added removed := by
              simp only [collectAux, hk, if_neg hfull, if_neg hshort, if_pos hseen]
            rw [hred]
            exact weaken
          · have hkeynot :
                lowerStr (truncateText (collapseWhitespace p.value) maxL) ∉
                  (added ++ removed).map lowerStr := by
              intro hc
              exact hseen (h4 _ hc)
            have hlen2 : (added ++ [truncateText (collapseWhitespace p.value) maxL]).length ≤ maxS := by
              simp
              omega
            have hnd2 := nodup_addLeft added removed
              (truncateText (collapseWhitespace p.value) maxL) h3 hkeynot
            have h42 : 4 ≤ (collapseWhitespace p.value).length := Nat.le_of_not_lt hshort
            by_cases hbreak :
                maxS ≤ (added ++ [truncateText (collapseWhitespace p.value) maxL]).length ∧
                maxS ≤ removed.length
            · have hred : collectAux maxS maxL (p :: ps) seen added removed =
                  (added ++ [truncateText (collapseWhitespace p.value) maxL], removed) := by
                simp only [collectAux, hk, if_neg hfull, if_neg hshort, if_neg hseen,
                  if_pos hbreak]
              rw [hred]
              refine ⟨hlen2, h2, hnd2, fun s hs => ?_, fun s hs => Or.inl hs⟩
              rcases List.mem_append.mp hs with h | h
              · exact Or.inl h
              · have : s = truncateText (collapseWhitespace p.value) maxL := by
                  simpa using h
                exact Or.inr ⟨p, List.mem_cons_self _ _, hk, h42, this⟩
            · have hred : collectAux maxS maxL (p :: ps) seen added removed =
                  collectAux maxS maxL ps
                    (lowerStr (truncateText (collapseWhitespace p.value) maxL) :: seen)
                    (added ++ [truncateText (collapseWhitespace p.value) maxL]) removed := by
                simp only [collectAux, hk, if_neg hfull, if_neg hshort, if_neg hseen,
                  if_neg hbreak]
              rw [hred]
              have hseen2 : ∀ k ∈
                  ((added ++ [truncateText (collapseWhitespace p.value) maxL]) ++
                    removed).map lowerStr,
                  (lowerStr (truncateText (collapseWhitespace p.value) maxL) :: seen).contains
                    k = true := by
                intro k hkmem
                rcases List.mem_map.mp hkmem with ⟨x, hx, hxk⟩
                rcases List.mem_append.mp hx with hxl | hxr
                · rcases List.mem_append.mp hxl with hxa | hxs
                  · have hmem2 : k ∈ (added ++ removed).map lowerStr :=
                      List.mem_map.mpr ⟨x, List.mem_append.mpr (Or.inl hxa), hxk⟩
                    rw [List.contains_cons, h4 k hmem2, Bool.or_true]
                  · have hxs2 : x = truncateText (collapseWhitespace p.value) maxL := by
                      simpa using hxs
                    have hkk : k = lowerStr (truncateText (collapseWhitespace p.value) maxL) := by
                      rw [← hxk, hxs2]
                    simp [List.contains_cons, hkk]
                · have hmem2 : k ∈ (added ++ removed).map lowerStr :=
                    List.mem_map.mpr ⟨x, List.mem_append.mpr (Or.inr hxr), hxk⟩
                  rw [List.contains_cons, h4 k hmem2, Bool.or_true]
              obtain ⟨a1, a2, a3, a4, a5⟩ := ih _ _ _ hlen2 h2 hnd2 hseen2
              refine ⟨a1, a2, a3, fun s hs => ?_, fun s hs => ?_⟩
              · rcases a4 s hs with h | ⟨q, hq, hrest⟩
                · rcases List.mem_append.mp h with h | h
                  · exact Or.inl h
                  · have : s = truncateText (collapseWhitespace p.value) maxL := by
                      simpa using h
                    exact Or.inr ⟨p, List.mem_cons_self _ _, hk, h42, this⟩
                · exact Or.inr ⟨q, List.mem_cons_of_mem _ hq, hrest⟩
              · rcases a5 s hs with h | ⟨q, hq, hrest⟩
                · exact Or.inl h
                · exact Or.inr ⟨q, List.mem_cons_of_mem _ hq, hrest⟩
    | removed =>
      by_cases hfull : maxS ≤ removed.length
      · have hred : collectAux maxS maxL (p :: ps) seen added removed =
            collectAux maxS maxL ps seen added removed := by
          simp only [collectAux, hk, if_pos hfull]
        rw [hred]
        exact weaken
      · by_cases hshort : (collapseWhitespace p.value).length < 4
        · have hred : collectAux maxS maxL (p :: ps) seen added removed =
              collectAux maxS maxL ps seen added removed := by
            simp only [collectAux, hk, if_neg hfull, if_pos hshort]
          rw [hred]
          exact weaken
        · by_cases hseen :
              seen.contains (lowerStr (truncateText (collapseWhitespace p.value) maxL)) = true
          · have hred : collectAux maxS maxL (p :: ps) seen added removed =
                collectAux maxS maxL ps seen added removed := by
              simp only [collectAux, hk, if_neg hfull, if_neg hshort, if_pos hseen]
            rw [hred]
            exact weaken
          · have hkeynot :
                lowerStr (truncateText (collapseWhitespace p.value) maxL) ∉
                  (added ++ removed).map lowerStr := by
              intro hc
              exact hseen (h4 _ hc)
            have hlen2 : (removed ++ [truncateText (collapseWhitespace p.value) maxL]).length ≤ maxS := by
              simp
              omega
            have hnd2 := nodup_addRight added removed
              (truncateText (collapseWhitespace p.value) maxL) h3 hkeynot
            have h42 : 4 ≤ (collapseWhitespace p.value).length := Nat.le_of_not_lt hshort
            by_cases hbreak :
                maxS ≤ added.length ∧
                maxS ≤ (removed ++ [truncateText (collapseWhitespace p.value) maxL]).length
            · have hred : collectAux maxS maxL (p :: ps) seen added removed =
                  (added, removed ++ [truncateText (collapseWhitespace p.value) maxL]) := by
                simp only [collectAux, hk, if_neg hfull, if_neg hshort, if_neg hseen,
                  if_pos hbreak]
              rw [hred]
              refine ⟨h1, hlen2, hnd2, fun s hs => Or.inl hs, fun s hs => ?_⟩
              rcases List.mem_append.mp hs with h | h
              · exact Or.inl h
              · have : s = truncateText (collapseWhitespace p.value) maxL := by
                  simpa using h
                exact Or.inr ⟨p, List.mem_cons_self _ _, hk, h42, this⟩
            · have hred : collectAux maxS maxL (p :: ps) seen added removed =
                  collectAux maxS maxL ps
                    (lowerStr (truncateText (collapseWhitespace p.value) maxL) :: seen)
                    added (removed ++ [truncateText (collapseWhitespace p.value) maxL]) := by
                simp only [collectAux, hk, if_neg hfull, if_neg hshort, if_neg hseen,
                  if_neg hbreak]
              rw [hred]
              have hseen2 : ∀ k ∈
                  (added ++ (removed ++
                    [truncateText (collapseWhitespace p.value) maxL])).map lowerStr,
                  (lowerStr (truncateText (collapseWhitespace p.value) maxL) :: seen).contains
                    k = true := by
                intro k hkmem
                rcases List.mem_map.mp hkmem with ⟨x, hx, hxk⟩
                rcases List.mem_append.mp hx with hxa | hxr
                · have hmem2 : k ∈ (added ++ removed).map lowerStr :=
                    List.mem_map.mpr ⟨x, List.mem_append.mpr (Or.inl hxa), hxk⟩
                  rw [List.contains_cons, h4 k hmem2, Bool.or_true]
                · rcases List.mem_append.mp hxr with hxr2 | hxs
                  · have hmem2 : k ∈ (added ++ removed).map lowerStr :=
                      List.mem_map.mpr ⟨x, List.mem_append.mpr (Or.inr hxr2), hxk⟩
                    rw [List.contains_cons, h4 k hmem2, Bool.or_true]
                  · have hxs2 : x = truncateText (collapseWhitespace p.value) maxL := by
                      simpa using hxs
                    have hkk : k = lowerStr (truncateText (collapseWhitespace p.value) maxL) := by
                      rw [← hxk, hxs2]
                    simp [List.contains_cons, hkk]
              obtain ⟨a1, a2, a3, a4, a5⟩ := ih _ _ _ h1 hlen2 hnd2 hseen2
              refine ⟨a1, a2, a3, fun s hs => ?_, fun s hs => ?_⟩
              · rcases a4 s hs with h | ⟨q, hq, hrest⟩
                · exact Or.inl h
                · exact Or.inr ⟨q, List.mem_cons_of_mem _ hq, hrest⟩
              · rcases a5 s hs with h | ⟨q, hq, hrest⟩
                · rcases List.mem_append.mp h with h | h
                  · exact Or.inl h
                  · have : s = truncateText (collapseWhitespace p.value) maxL := by
                      simpa using h
                    exact Or.inr ⟨p, List.mem_cons_self _ _, hk, h42, this⟩
                · exact Or.inr ⟨q, List.mem_cons_of_mem _ hq, hrest⟩

/-- C5 counterexample: a snippet occurring in a Removed segment and
then in an Inserted segment lands only in the removed bucket — the
`seen` set is shared across buckets, so deduplication is not
per-bucket as claimed. -/
theorem c5_counterexample :
    collectDiffSnippets [⟨Kind.removed, "abcd"⟩, ⟨Kind.inserted, "abcd"⟩] 12 220 =
      ([], ["abcd"]) := by
  decide

/-- C5 (amended): the excerpt collector deduplicates case-insensitively
across both buckets together (a snippet appears in at most one bucket,
the first kind encountered winning); candidates whose
whitespace-collapsed form is shorter than 4 characters are discarded,
every collected snippet is the truncation of the collapsed value of an
Inserted (added bucket) or Removed (removed bucket) segment, and no
bucket ever exceeds maxSnippets entries. -/
theorem c5_amended (parts : List Seg) (maxSnippets maxLen : Nat) :
    (collectDiffSnippets parts maxSnippets maxLen).1.length ≤ maxSnippets ∧
    (collectDiffSnippets parts maxSnippets maxLen).2.length ≤ maxSnippets ∧
    (((collectDiffSnippets parts maxSnippets maxLen).1 ++
      (collectDiffSnippets parts maxSnippets maxLen).2).map lowerStr).Nodup ∧
    (∀ s ∈ (collectDiffSnippets parts maxSnippets maxLen).1,
      ∃ p, p ∈ parts ∧ p.kind = Kind.inserted ∧
        4 ≤ (collapseWhitespace p.value).length ∧
        s = truncateText (collapseWhitespace p.value) maxLen) ∧
    (∀ s ∈ (collectDiffSnippets parts maxSnippets maxLen).2,
      ∃ p, p ∈ parts ∧ p.kind = Kind.removed ∧
        4 ≤ (collapseWhitespace p.value).length ∧
        s = truncateText (collapseWhitespace p.value) maxLen) := by
  obtain ⟨a1, a2, a3, a4, a5⟩ :=
    collectAux_inv maxSnippets maxLen parts [] [] []
      (by simp) (by simp) (by simp) (by simp)
  refine ⟨a1, a2, a3, fun s hs => ?_, fun s hs => ?_⟩
  · rcases a4 s hs with h | h
    · simp at h
    · exact h
  · rcases a5 s hs with h | h
    · simp at h
    · exact h

/-- C5 witness: on a single Inserted segment "abcd" the collected added
snippet "abcd" comes from that segment, whose collapsed value passes
the 4-character filter. -/
theorem c5_amended_witness :
    ∃ p, p ∈ [(⟨Kind.inserted, "abcd"⟩ : Seg)] ∧ p.kind = Kind.inserted ∧
      4 ≤ (collapseWhitespace p.value).length ∧
      "abcd" = truncateText (collapseWhitespace p.value) 220 := by
  have h := c5_amended [⟨Kind.inserted, "abcd"⟩] 12 220
  exact h.2.2.2.1 "abcd" (by decide)

end Pulse
namespace Pulse

theorem jsize_pos (v : JValue) : 1 ≤ jsize v := by
  cases v <;> simp [jsize]

theorem walkF_mem_succ (n : Nat) (p : String) (va vb : JValue) (ch : SChange)
    (hch : ch ∈ walkF (n + 1) p (some va) (some vb)) :
    ch.type = CType.changed ∨ ∃ q a2 b2, ch ∈ walkF n q a2 b2 := by
  cases va <;> cases vb <;>
    simp only [walkF, List.mem_flatMap, List.mem_singleton] at hch <;>
    first
      | (rcases hch with ⟨i, _, h2⟩
         exact Or.inr ⟨_, _, _, h2⟩)
      | (split at hch
         · simp at hch
         · simp only [List.mem_singleton] at hch
           exact Or.inl (by rw [hch]))
      | (exact Or.inl (by rw [hch]))

theorem walkF_types : ∀ (fuel : Nat) (p : String) (a b : Option JValue) (ch : SChange),
    ch ∈ walkF fuel p a b →
    (ch.type = CType.added → ch.left = JValue.null) ∧
    (ch.type = CType.removed → ch.right = JValue.null) := by
  intro fuel
  induction fuel with
  | zero =>
    intro p a b ch hch
    simp [walkF] at hch
  | succ n ih =>
    intro p a b ch hch
    cases a with
    | none =>
      cases b with
      | none => simp [walkF] at hch
      | some vb =>
        have he : ch = ⟨p, CType.added, JValue.null, vb⟩ := by simpa [walkF] using hch
        subst he
        exact ⟨fun _ => rfl, fun h => by simp at h⟩
    | some va =>
      cases b with
      | none =>
        have he : ch = ⟨p, CType.removed, va, JValue.null⟩ := by simpa [walkF] using hch
        subst he
        exact ⟨fun h => by simp at h, fun _ => rfl⟩
      | some vb =>
        rcases walkF_mem_succ n p va vb ch hch with hc | ⟨q, a2, b2, h2⟩
        · exact ⟨fun h => by rw [hc] at h; simp at h,
            fun h => by rw [hc] at h; simp at h⟩
        · exact ih q a2 b2 ch h2

theorem walkF_scalar (n : Nat) (p : String) (a b : JValue)
    (ha : isScalar a = true) (hb : isScalar b = true) :
    walkF (n + 1) p (some a) (some b) =
      if scalarEq a b then [] else [⟨p, CType.changed, a, b⟩] := by
  cases a <;> cases b <;> simp [isScalar] at ha hb ⊢ <;> simp [walkF, scalarEq]

/-- C2: every record of the structured tree differ satisfies the type
invariants — an Added record carries a null left side and a Removed
record a null right side; at a path where both sides hold scalars a
Changed record is produced exactly when the two values differ under
primitive equality; and diffing `{invoice_number:"1", total:10}`
against `{invoice_number:"2", total:10}` yields exactly the one record
`{path:"invoice_number", type:changed, left:"1", right:"2"}`. -/
theorem c2_structured_invariants :
    (∀ (fuel : Nat) (p : String) (a b : Option JValue) (ch : SChange),
      ch ∈ walkF fuel p a b →
      (ch.type = CType.added → ch.left = JValue.null) ∧
      (ch.type = CType.removed → ch.right = JValue.null)) ∧
    (∀ (n : Nat) (p : String) (a b : JValue),
      isScalar a = true → isScalar b = true →
      walkF (n + 1) p (some a) (some b) =
        if scalarEq a b then [] else [⟨p, CType.changed, a, b⟩]) ∧
    diffStructured sampleLeft sampleRight =
      [⟨"invoice_number", CType.changed, JValue.str "1", JValue.str "2"⟩] := by
  refine ⟨walkF_types, walkF_scalar, ?_⟩
  have hm : ∀ n, walkF (n + 2) "" (some sampleLeft) (some sampleRight) =
      [⟨"invoice_number", CType.changed, JValue.str "1", JValue.str "2"⟩] := by
    intro n
    simp [walkF, sampleLeft, sampleRight, unionKeys, dedupAux, childPath, scalarEq]
  have h1 := jsize_pos sampleLeft
  have h2 := jsize_pos sampleRight
  rw [diffStructured]
  have heq : jsize sampleLeft + jsize sampleRight =
      (jsize sampleLeft + jsize sampleRight - 2) + 2 := by omega
  rw [heq]
  exact hm _

/-- C2 witness: the invariants evaluated at concrete inputs — an Added
record produced by the differ has a null left side, a Removed record a
null right side, and two differing scalars produce one Changed record. -/
theorem c2_structured_invariants_witness :
    (⟨"x", CType.added, JValue.null, JValue.num 5⟩ : SChange).left = JValue.null ∧
    (⟨"x", CType.removed, JValue.num 5, JValue.null⟩ : SChange).right = JValue.null ∧
    walkF 1 "p" (some (JValue.num 1)) (some (JValue.num 2)) =
      [⟨"p", CType.changed, JValue.num 1, JValue.num 2⟩] := by
  refine ⟨?_, ?_, ?_⟩
  · exact (c2_structured_invariants.1 1 "x" none (some (JValue.num 5))
      ⟨"x", CType.added, JValue.null, JValue.num 5⟩ (by simp [walkF])).1 rfl
  · exact (c2_structured_invariants.1 1 "x" (some (JValue.num 5)) none
      ⟨"x", CType.removed, JValue.num 5, JValue.null⟩ (by simp [walkF])).2 rfl
  · have h := c2_structured_invariants.2.1 0 "p" (JValue.num 1) (JValue.num 2) rfl rfl
    rw [h]
    rfl

/-- C9: when one or both structured outputs are absent the structured
tree differ is skipped and the structured diff result is the empty
change list; the function is total, so this case cannot raise. -/
theorem c9_structured_skip (l r : Option JValue) :
    structuredDiffResult none r = [] ∧
    structuredDiffResult l none = [] := by
  constructor
  · cases r <;> rfl
  · cases l <;> rfl

/-- C10: the structuredDiff response field reports the full change
count as total but carries only the first 200 change records — all of
them when the total is at most 200. -/
theorem c10_response_truncation (changes : List SChange) :
    (responseStructuredDiff changes).1 = changes.length ∧
    (responseStructuredDiff changes).2 = changes.take 200 ∧
    (responseStructuredDiff changes).2.length = min 200 changes.length ∧
    (changes.length ≤ 200 → (responseStructuredDiff changes).2 = changes) := by
  refine ⟨rfl, rfl, by simp [responseStructuredDiff], fun h => ?_⟩
  show changes.take 200 = changes
  exact List.take_of_length_le h

/-- C10 witness: on a one-record list the response reports total 1 and
carries the record itself. -/
theorem c10_response_truncation_witness :
    (responseStructuredDiff [⟨"a", CType.changed, JValue.num 1, JValue.num 2⟩]).1 = 1 ∧
    (responseStructuredDiff [⟨"a", CType.changed, JValue.num 1, JValue.num 2⟩]).2 =
      [⟨"a", CType.changed, JValue.num 1, JValue.num 2⟩] := by
  have h := c10_response_truncation [⟨"a", CType.changed, JValue.num 1, JValue.num 2⟩]
  exact ⟨h.1, h.2.2.2 (by simp)⟩

end Pulse
